import Mathlib

/-!
# Verification of the `Oh` ANSI-to-SVG converter (C sources)

This file gives a shallow embedding of the cache, hashing, configuration
serialization and ANSI-parsing routines of `Oh.c`, `Oh-cache.c` and
`Oh-parse.c`, and proves (or refutes) the specification claims about them.

Modelling conventions:
* C `char` buffers (NUL-terminated byte strings) are modelled as `List Char`
  where every element stands for one byte of the buffer (`Char.toNat` is the
  byte value; NUL never occurs inside a C string so it never occurs in the
  lists we quantify over).
* C `int` fields are modelled as `ℤ`, C `unsigned int` arithmetic as `ℕ`
  with explicit reduction modulo `2 ^ 32`.
* C `double` values that are only ever formatted with `%.2f` are modelled as
  `ℚ`; the formatting rounds the value to two decimals (ties upward; no
  value appearing in any theorem below is a tie, so the tie-breaking
  direction is not load-bearing).
* Fallible I/O (a `popen` that may fail, JSON fields that may be absent) is
  modelled with `Option`.
-/

/-! ## Constants from `Oh.h` -/

def MAX_LINE_LENGTH : ℕ := 4096

def MAX_SEGMENTS : ℕ := 1000

def DEFAULT_PADDING : ℤ := 20

def BG_COLOR : List Char := "#1e1e1e".toList

def TEXT_COLOR : List Char := "#ffffff".toList

/-! ## The POSIX `cksum` checksum

The spec requires `generate_hash` to equal the CRC-style checksum computed
by POSIX `cksum`.  The repository has no in-process implementation (it
shells out to the system utility), so the reference algorithm is modelled
from the spec here: CRC-32 with polynomial 0x04C11DB7, zero initial value,
no reflection, the byte count appended least-significant-octet first, and a
final complement, exactly as POSIX specifies for `cksum`. -/

/-- One shift step of the CRC register (32-bit, polynomial 0x04C11DB7). -/
def crcStep (c : ℕ) : ℕ :=
  if 2 ^ 31 ≤ c then ((c % 2 ^ 31) * 2) ^^^ 0x04C11DB7 else c * 2

/-- Feed one byte into the CRC register: xor into the top byte, then eight
shift steps. -/
def crcFeed (c b : ℕ) : ℕ :=
  crcStep (crcStep (crcStep (crcStep (crcStep (crcStep (crcStep (crcStep
    (c ^^^ (b % 256) * 2 ^ 24))))))))

/-- Octet-feeding loop for the byte count, with explicit fuel: a C
`size_t` has eight octets, so eight iterations exhaust any possible
length (`while (n) { feed(n & 0xFF); n >>= 8; }`). -/
def crcFeedLenAux : ℕ → ℕ → ℕ → ℕ
  | 0, c, _ => c
  | fuel + 1, c, n => if n = 0 then c else crcFeedLenAux fuel (crcFeed c (n % 256)) (n / 256)

/-- Append the byte count to the CRC, least significant octet first, as
POSIX `cksum` does. -/
def crcFeedLen (c n : ℕ) : ℕ := crcFeedLenAux 8 c n

/-- Modelled from the spec: the POSIX `cksum` checksum of a byte string
(the repository itself invokes the external `cksum` utility instead of
computing this in-process). -/
def cksum (data : List ℕ) : ℕ :=
  (crcFeedLen (data.foldl crcFeed 0) data.length) ^^^ (2 ^ 32 - 1)

/-- The byte values of a modelled C string. -/
def strBytes (s : List Char) : List ℕ := s.map Char.toNat

/-! ## `generate_hash` (`Oh-cache.c` lines 9-34)

The C function builds the shell command `printf '%s' '<input>' | cksum`,
runs it with `popen`, and parses the first decimal number of its output
with `strtoul` (truncated to `unsigned int`).  If `popen` or `fgets` fails
it falls back to the in-process hash `h := h * 31 + byte (mod 2^32)`.
The outcome of the external process is an input of the model. -/

/-- The fallback hash of `generate_hash` (`hash = hash * 31 + *data`),
with `unsigned int` wrap-around. -/
def fallbackHash (input : List Char) : ℕ :=
  input.foldl (fun h b => (h * 31 + b.toNat) % 2 ^ 32) 0

/-- The single-quote byte (0x27). -/
def squoteChar : Char := Char.ofNat 39

/-- The shell command string `generate_hash` builds with `snprintf`:
`printf` , a quoted `%s` format, the input inside single quotes, piped to
the external `cksum` utility. -/
def genHashCommand (input : List Char) : List Char :=
  "printf ".toList ++ squoteChar :: '%' :: 's' :: squoteChar :: ' '
    :: squoteChar :: (input ++ squoteChar :: " | cksum".toList)

/-- `strtoul(result, NULL, 10)` truncated to `unsigned int`: leading
decimal digits of the captured line, reduced mod `2 ^ 32`. -/
def strtoulDec (s : List Char) : ℕ :=
  ((s.takeWhile (fun c => c.isDigit)).foldl
    (fun a c => a * 10 + (c.toNat - 48)) 0) % 2 ^ 32

/-- `generate_hash`: `popenResult` is the first output line captured from
the external `cksum` pipeline (`none` when `popen`/`fgets` fails, in which
case the fallback hash is used). -/
def generate_hash (input : List Char) (popenResult : Option (List Char)) : ℕ :=
  match popenResult with
  | some result => strtoulDec result
  | none => fallbackHash input

/-! ## Decimal rendering and `atoi` -/

/-- Little-endian base-10 digits computed with explicit fuel (`fuel ≥ n`
suffices), kept structurally recursive so the kernel can evaluate it. -/
def decDigitsAux : ℕ → ℕ → List ℕ
  | 0, _ => []
  | fuel + 1, n => if n = 0 then [] else n % 10 :: decDigitsAux fuel (n / 10)

/-- Little-endian base-10 digits of a natural number. -/
def decDigits (n : ℕ) : List ℕ := decDigitsAux n n

/-- Big-endian decimal digit characters of a natural number (the rendering
`snprintf` uses for `%u`/`%d` of a non-negative value). -/
def natDigitsStr (n : ℕ) : List Char :=
  if n = 0 then ['0'] else ((decDigits n).map Nat.digitChar).reverse

/-- `%d` rendering of a C `int`. -/
def intStr (i : ℤ) : List Char :=
  if i < 0 then '-' :: natDigitsStr i.natAbs else natDigitsStr i.natAbs

/-- C `isspace` characters skipped by `atoi`. -/
def isCSpace (c : Char) : Bool :=
  c = ' ' ∨ (9 ≤ c.toNat ∧ c.toNat ≤ 13)

/-- The digit-accumulation loop shared by `atoi`. -/
def decAcc (s : List Char) : ℕ :=
  (s.takeWhile (fun c => c.isDigit)).foldl (fun a c => a * 10 + (c.toNat - 48)) 0

/-- `atoi`: skip whitespace, optional sign, then leading decimal digits
(the mathematical value; C overflow is undefined behaviour and no input in
this development overflows). -/
def atoiChars (s : List Char) : ℤ :=
  let t := s.dropWhile isCSpace
  match t with
  | '-' :: r => -(decAcc r : ℤ)
  | '+' :: r => (decAcc r : ℤ)
  | r => (decAcc r : ℤ)

/-! ## ANSI colour table (`Oh.c` lines 53-71, 325-332) -/

/-- The `ansi_colors[]` table from `Oh.c` (code, colour) pairs, without the
terminator entry. -/
def ansi_colors : List (ℤ × List Char) :=
  [(30, "#000000".toList), (31, "#cd3131".toList), (32, "#0dbc79".toList),
   (33, "#e5e510".toList), (34, "#2472c8".toList), (35, "#bc3fbc".toList),
   (36, "#11a8cd".toList), (37, "#e5e5e5".toList), (90, "#666666".toList),
   (91, "#f14c4c".toList), (92, "#23d18b".toList), (93, "#f5f543".toList),
   (94, "#3b8eea".toList), (95, "#d670d6".toList), (96, "#29b8db".toList),
   (97, "#e5e5e5".toList)]

/-- `get_ansi_color`: linear table lookup, `TEXT_COLOR` when absent. -/
def get_ansi_color (code : ℤ) : List Char :=
  match ansi_colors.find? (fun p => p.1 = code) with
  | some p => p.2
  | none => TEXT_COLOR

/-! ## Configuration serialization (`Oh-cache.c` lines 37-57) -/

/-- The `Config` structure of `Oh.h` (fields that never reach the
serialization are carried for faithfulness). -/
structure Config where
  input_file : List Char
  output_file : List Char
  font_family : List Char
  font_size : ℤ
  font_width : ℚ
  font_height : ℚ
  font_weight : ℤ
  width : ℤ
  height : ℤ
  wrap : Bool
  tab_size : ℤ
  font_width_explicit : Bool
  font_height_explicit : Bool
deriving DecidableEq

/-- Round a rational to the nearest integer, ties upward (model of the
rounding `%.2f` applies after scaling by 100; no value used in a theorem
below is a tie). -/
def roundQ (q : ℚ) : ℤ := ⌊q + 1 / 2⌋

/-- `%.2f` rendering: sign, integer part, point, exactly two fractional
digits. -/
def fmt2 (q : ℚ) : List Char :=
  let c := roundQ (q * 100)
  let a := c.natAbs
  (if c < 0 then ['-'] else []) ++ natDigitsStr (a / 100)
    ++ '.' :: [Nat.digitChar (a % 100 / 10), Nat.digitChar (a % 10)]

/-- `"true"`/`"false"` rendering of a C boolean flag. -/
def boolStr (b : Bool) : List Char :=
  if b then "true".toList else "false".toList

/-- The canonical configuration string `generate_config_hash` builds with
`snprintf("%s|%d|%.2f|%.2f|%d|%d|%d|%s|%d|%s|%s|%d", ...)`. -/
def config_string (c : Config) : List Char :=
  c.font_family ++ '|' :: (intStr c.font_size ++ '|' :: (fmt2 c.font_width
    ++ '|' :: (fmt2 c.font_height ++ '|' :: (intStr c.font_weight
    ++ '|' :: (intStr c.width ++ '|' :: (intStr c.height
    ++ '|' :: (boolStr c.wrap ++ '|' :: (intStr c.tab_size
    ++ '|' :: (BG_COLOR ++ '|' :: (TEXT_COLOR
    ++ '|' :: intStr DEFAULT_PADDING))))))))))

/-! ## Line data (`Oh.h` lines 79-92) -/

/-- The `TextSegment` structure of `Oh.h`. -/
structure TextSegment where
  text : List Char
  fg_color : List Char
  bg_color : List Char
  bold : Bool
  visible_pos : ℤ
deriving DecidableEq

/-- The `LineData` structure of `Oh.h`: the first `segment_count` entries
of the `segments` array, plus `visible_length`. -/
structure LineData where
  segments : List TextSegment
  visible_length : ℤ
deriving DecidableEq

/-! ## Line-cache persistence (`Oh-cache.c` lines 72-289)

The JSON file written by `save_line_cache` is modelled as a record; the
jansson layer transports the stored strings and integers verbatim.
`Option` marks the object members `load_line_cache` checks for
(`json_is_integer` / `json_is_array`). -/

/-- The persisted JSON object of a line-cache file. -/
structure CacheRecord where
  cache_key : List Char
  visible_length : Option ℤ
  segments : Option (List (List Char))
  timestamp : ℤ
deriving DecidableEq

/-- The pipe-joined segment string `save_line_cache` builds with
`snprintf("%s|%s|%s|%s|%d", text, fg, bg, bold ? "true" : "false", pos)`. -/
def segString (seg : TextSegment) : List Char :=
  seg.text ++ '|' :: (seg.fg_color ++ '|' :: (seg.bg_color
    ++ '|' :: (boolStr seg.bold ++ '|' :: intStr seg.visible_pos)))

/-- `save_line_cache`: builds the JSON record (all five fields of every
segment, plus `visible_length` and the wall-clock timestamp). -/
def save_line_cache (cache_key : List Char) (ld : LineData) (timestamp : ℤ) :
    CacheRecord :=
  { cache_key := cache_key
    visible_length := some ld.visible_length
    segments := some (ld.segments.map segString)
    timestamp := timestamp }

/-- Split a modelled C string at every occurrence of a separator byte
(`splitOnC sep []` is `[[]]`, matching the manual pointer loop of
`load_line_cache`, which always yields at least one field). -/
def splitOnC (sep : Char) : List Char → List (List Char)
  | [] => [[]]
  | c :: r =>
    if c = sep then [] :: splitOnC sep r
    else
      match splitOnC sep r with
      | t :: ts => (c :: t) :: ts
      | [] => [[c]]

/-- The manual field loop of `load_line_cache` (lines 209-272): the first
five pipe-separated fields are extracted (the fifth is also cut at its
next pipe); a field beyond `part_count` is `NULL` and the corresponding
member of the destination segment slot is left untouched — `prev` is the
previous content of that slot (`malloc`ed storage, so possibly stale or
indeterminate). -/
def loadSegment (prev : TextSegment) (s : List Char) : TextSegment :=
  let parts := (splitOnC '|' s).take 5
  { text := parts.getD 0 prev.text
    fg_color := parts.getD 1 prev.fg_color
    bg_color := parts.getD 2 prev.bg_color
    bold :=
      match parts.get? 3 with
      | some p => p = "true".toList
      | none => prev.bold
    visible_pos :=
      match parts.get? 4 with
      | some p => atoiChars p
      | none => prev.visible_pos }

/-- `load_line_cache` on a parsed JSON record: `visible_length` defaults
to 0 when the member is absent, the segment-string array is truncated at
`MAX_SEGMENTS`, and each segment string is parsed into the corresponding
slot of the destination array, whose previous contents are `prev`. -/
def load_line_cache (rec : CacheRecord) (prev : ℕ → TextSegment) : LineData :=
  { visible_length := rec.visible_length.getD 0
    segments :=
      match rec.segments with
      | none => []
      | some l => (l.take MAX_SEGMENTS).mapIdx (fun i s => loadSegment (prev i) s) }

/-! ## Global input hash (`Oh-cache.c` lines 383-399, `Oh.c` lines 391-394)

`read_input` stores `hash_cache[i] = "%u" of generate_hash(line i)`;
`generate_global_input_hash` concatenates those decimal strings with
`strcat` and hashes the concatenation.  The model takes the
successful-`popen` path of `generate_hash`, on which the hash of a string
is the POSIX `cksum` of its bytes. -/

/-- The decimal hash string `read_input` stores in `hash_cache[i]`. -/
def lineHashStr (line : List Char) : List Char :=
  natDigitsStr (cksum (strBytes line))

/-- `generate_global_input_hash`: `cksum` of the `strcat`-concatenation of
the per-line hash strings, as a `%u` decimal string. -/
def global_input_hash (lines : List (List Char)) : List Char :=
  natDigitsStr (cksum (strBytes ((lines.map lineHashStr).flatten)))

/-! ## Incremental-cache persistence (`Oh-cache.c` lines 433-486)

`save_incremental_cache` serializes the state and hands it to
`json_dump_file(root, incremental_cache_file, ...)`, which opens the final
path with `fopen(path, "w")` — truncating the previous contents in place —
writes, and closes.  The file-system effects are modelled as a trace. -/

/-- File-system operations relevant to crash-safety. -/
inductive FsOp where
  | openTruncate (path : List Char)
  | writeAll (path : List Char)
  | close (path : List Char)
  | rename (src dst : List Char)
deriving DecidableEq

/-- Whether an operation is a rename. -/
def FsOp.isRename : FsOp → Bool
  | FsOp.rename _ _ => true
  | _ => false

/-- The path of the incremental cache file (`incremental_cache_file`
global; the concrete directory is irrelevant to the trace shape). -/
def incremental_cache_file : List Char := "incremental_cache_file".toList

/-- The file-system trace of `save_incremental_cache`: a single
`json_dump_file` call on the final path — open-truncate, write, close;
no temporary file and no rename. -/
def save_incremental_cache_trace : List FsOp :=
  [FsOp.openTruncate incremental_cache_file,
   FsOp.writeAll incremental_cache_file,
   FsOp.close incremental_cache_file]

/-! ## ANSI parsing (`Oh-parse.c` lines 97-280)

The C pointer loop is modelled as a byte-at-a-time state machine folded
over the line.  The one-character lookahead `*ptr == ESC && *(ptr+1) == '['`
becomes a `sawEsc` mode (a lone ESC is re-emitted as a regular character
when the next byte is not `'['`, exactly as the C loop re-examines it);
the inner scan loop `while (*ptr && *ptr != 'm' && codes_pos < 63)`
becomes an `inEsc` mode carrying the `codes` buffer. -/

/-- The ESC byte (0x1B). -/
def escChar : Char := Char.ofNat 27

/-- `utf8_strlen`: counts the bytes that are not UTF-8 continuation bytes
(`(*p & 0xC0) != 0x80`). -/
def utf8_strlen : List Char → ℕ
  | [] => 0
  | c :: r => (if c.toNat &&& 0xC0 ≠ 0x80 then 1 else 0) + utf8_strlen r

/-- The current graphic-rendition state (locals `fg`, `bg`, `bold`). -/
structure Style where
  fg : List Char
  bg : List Char
  bold : Bool
deriving DecidableEq

/-- The initial / reset style: `fg = TEXT_COLOR`, `bg = ""`, `bold = 0`. -/
def styleInit : Style := ⟨TEXT_COLOR, [], false⟩

/-- Effect of one numeric SGR code on the style (`Oh-parse.c` 206-225). -/
def applyCode (s : Style) (code : ℤ) : Style :=
  if code = 0 then styleInit
  else if code = 1 then { s with bold := true }
  else if 30 ≤ code ∧ code ≤ 37 then { s with fg := get_ansi_color code }
  else if 90 ≤ code ∧ code ≤ 97 then { s with fg := get_ansi_color code }
  else if 40 ≤ code ∧ code ≤ 47 then { s with bg := get_ansi_color (code - 10) }
  else s

/-- `strtok` tokenisation: split on the separator, dropping empty fields
(runs of separators and leading/trailing separators yield no token). -/
def strtokTokens (sep : Char) (s : List Char) : List (List Char) :=
  (splitOnC sep s).filter (fun t => t ≠ [])

/-- Processing of a complete `codes` buffer (`Oh-parse.c` 197-229): an
empty buffer is an explicit reset (`ESC[m`); otherwise each `strtok`
token is converted with `atoi` and applied in order. -/
def processCodes (s : Style) (codes : List Char) : Style :=
  if codes = [] then styleInit
  else (strtokTokens ';' codes).foldl (fun st tok => applyCode st (atoiChars tok)) s

/-- Parser mode: ordinary text, the byte after a lone ESC, or inside an
escape body accumulating `codes`. -/
inductive Mode where
  | text : Mode
  | sawEsc : Mode
  | inEsc : List Char → Mode
deriving DecidableEq

/-- The loop state of `parse_ansi_line`. -/
structure ParseState where
  segments : List TextSegment
  style : Style
  visiblePos : ℤ
  currentText : List Char
  mode : Mode
deriving DecidableEq

/-- The initial state of `parse_ansi_line` (`Oh-parse.c` 138-152). -/
def parseInit : ParseState :=
  ⟨[], styleInit, 0, [], Mode.text⟩

/-- Accumulate one regular character into `current_text`, dropping it when
the buffer is full (`current_text_pos < MAX_LINE_LENGTH - 1`). -/
def addChar (st : ParseState) (c : Char) : ParseState :=
  if st.currentText.length < MAX_LINE_LENGTH - 1
  then { st with currentText := st.currentText ++ [c] }
  else st

/-- Emit the accumulated text as a segment (`Oh-parse.c` 157-180 and
240-260): only when text is pending and fewer than `MAX_SEGMENTS` segments
exist; otherwise the state is unchanged (in particular the pending text is
kept and the visible position does not advance). -/
def flush (st : ParseState) : ParseState :=
  if st.currentText ≠ [] ∧ st.segments.length < MAX_SEGMENTS then
    { st with
      segments := st.segments ++
        [⟨st.currentText, st.style.fg, st.style.bg, st.style.bold, st.visiblePos⟩]
      visiblePos := st.visiblePos + (utf8_strlen st.currentText : ℤ)
      currentText := [] }
  else st

/-- One step of the loop on a byte seen in text mode. -/
def stepText (st : ParseState) (c : Char) : ParseState :=
  if c = escChar then { st with mode := Mode.sawEsc } else addChar st c

/-- One step of the loop on an arbitrary byte. -/
def step (st : ParseState) (c : Char) : ParseState :=
  match st.mode with
  | Mode.text => stepText st c
  | Mode.sawEsc =>
    if c = '[' then { flush st with mode := Mode.inEsc [] }
    else stepText (addChar { st with mode := Mode.text } escChar) c
  | Mode.inEsc codes =>
    if c = 'm' then { st with style := processCodes st.style codes, mode := Mode.text }
    else if codes.length < 63 then { st with mode := Mode.inEsc (codes ++ [c]) }
    else stepText { st with style := processCodes st.style codes, mode := Mode.text } c

/-- End of line: a pending lone ESC is a regular character, a pending
escape body is processed without a terminator, and the remaining text is
flushed (`Oh-parse.c` 240-263). -/
def finishState (st : ParseState) : ParseState :=
  match st.mode with
  | Mode.text => flush st
  | Mode.sawEsc => flush (addChar { st with mode := Mode.text } escChar)
  | Mode.inEsc codes =>
    flush { st with style := processCodes st.style codes, mode := Mode.text }

/-- `parse_ansi_line` on a cache miss (the fresh computation, `Oh-parse.c`
lines 138-263): fold the byte machine over the line, finish, and read off
the segments and `visible_length := visible_pos`. -/
def parse_ansi_line (line : List Char) : LineData :=
  let st := finishState (line.foldl step parseInit)
  ⟨st.segments, st.visiblePos⟩

/-- Whether a line contains the two-byte escape introducer ESC `'['`. -/
def hasEscIntro : List Char → Bool
  | [] => false
  | c :: r => (c = escChar ∧ r.head? = some '[' : Bool) || hasEscIntro r

/-- The codepoint length of a segment's text. -/
def segLen (s : TextSegment) : ℕ := utf8_strlen s.text

/-- Exclusive running totals: `posSumsFrom a [n₁, n₂, ...] =
[a, a + n₁, a + n₁ + n₂, ...]`. -/
def posSumsFrom (a : ℤ) : List ℕ → List ℤ
  | [] => []
  | n :: r => a :: posSumsFrom (a + n) r

/-- The visible positions a gap-free, overlap-free segment partition
starting at 0 must carry. -/
def posSums (lens : List ℕ) : List ℤ := posSumsFrom 0 lens

/-- The loop invariant tying the running `visible_pos` to the emitted
segments: at most `MAX_SEGMENTS` segments, their positions are exactly the
running totals of their codepoint lengths, and `visible_pos` is the total
codepoint length of everything emitted so far. -/
def ParseInv (st : ParseState) : Prop :=
  st.segments.length ≤ MAX_SEGMENTS
  ∧ st.segments.map TextSegment.visible_pos = posSums (st.segments.map segLen)
  ∧ st.visiblePos = ((st.segments.map segLen).sum : ℤ)

/-- The state the loop reaches after a run of plain text (no escape
introducer): all bytes accumulate into `current_text`, except that a
trailing lone ESC is still pending in `sawEsc` mode. -/
def textRunResult (st : ParseState) (l : List Char) : ParseState :=
  if l.getLast? = some escChar then
    { st with currentText := st.currentText ++ l.dropLast, mode := Mode.sawEsc }
  else
    { st with currentText := st.currentText ++ l, mode := Mode.text }

/-- An escape body of exactly 63 non-`'m'` bytes (21 copies of `31;`),
filling the `codes[64]` buffer of `parse_ansi_line` to capacity. -/
def escBody63 : List Char := (List.replicate 21 ("31;".toList)).flatten

/-! ## Concrete test configurations -/

/-- A baseline configuration (defaults of `Oh.c`: Consolas 14, width
`0.6 * 14 = 8.4` modelled at `601/1000` here to exercise the `%.2f`
rounding, height `16.8`, weight 400, 80 columns). -/
def cfgA : Config :=
  ⟨"in.txt".toList, "out.svg".toList, "Consolas".toList, 14, 601 / 1000,
    168 / 10, 400, 80, 0, false, 8, false, false⟩

/-- `cfgA` with `font_width` moved to `602/1000`: a distinct value that
`%.2f` rounds to the same two-decimal string. -/
def cfgB : Config :=
  ⟨"in.txt".toList, "out.svg".toList, "Consolas".toList, 14, 602 / 1000,
    168 / 10, 400, 80, 0, false, 8, false, false⟩

/-- `cfgA` with `font_size` bumped to 15 (one integer field changed). -/
def cfgC : Config :=
  ⟨"in.txt".toList, "out.svg".toList, "Consolas".toList, 15, 601 / 1000,
    168 / 10, 400, 80, 0, false, 8, false, false⟩

/-! ## Theorems: decimal rendering and parsing -/

set_option maxRecDepth 10000

theorem decDigitsAux_eq_digits (fuel n : ℕ) (h : n ≤ fuel) :
    decDigitsAux fuel n = Nat.digits 10 n := by
  induction fuel generalizing n with
  | zero =>
    interval_cases n
    simp [decDigitsAux]
  | succ fuel ih =>
    by_cases hn : n = 0
    · simp [decDigitsAux, hn]
    · rw [decDigitsAux, if_neg hn, ih _ (by omega),
        Nat.digits_def' (by norm_num) (Nat.pos_of_ne_zero hn)]

theorem decDigits_eq_digits (n : ℕ) : decDigits n = Nat.digits 10 n :=
  decDigitsAux_eq_digits n n le_rfl

theorem mem_digits_lt_10 {n d : ℕ} (h : d ∈ Nat.digits 10 n) : d < 10 :=
  Nat.digits_lt_base (by norm_num) h

theorem digitChar_isDigit {d : ℕ} (h : d < 10) : (Nat.digitChar d).isDigit = true := by
  interval_cases d <;> decide

theorem digitChar_val {d : ℕ} (h : d < 10) : (Nat.digitChar d).toNat - 48 = d := by
  interval_cases d <;> decide

theorem natDigitsStr_all_digits (n : ℕ) :
    ∀ c ∈ natDigitsStr n, c.isDigit = true := by
  intro c hc
  rw [natDigitsStr] at hc
  by_cases hn : n = 0
  · rw [if_pos hn] at hc
    simp at hc
    subst hc
    decide
  · rw [if_neg hn] at hc
    rw [List.mem_reverse, List.mem_map] at hc
    obtain ⟨d, hd, rfl⟩ := hc
    rw [decDigits_eq_digits] at hd
    exact digitChar_isDigit (mem_digits_lt_10 hd)

theorem natDigitsStr_ne_nil (n : ℕ) : natDigitsStr n ≠ [] := by
  rw [natDigitsStr]
  by_cases hn : n = 0
  · simp [hn]
  · rw [if_neg hn]
    simp only [ne_eq, List.reverse_eq_nil_iff, List.map_eq_nil_iff]
    rw [decDigits_eq_digits]
    exact Nat.digits_ne_nil_iff_ne_zero.mpr hn

theorem foldl_digits_rev (ds : List ℕ) (hd : ∀ d ∈ ds, d < 10) :
    ((ds.map Nat.digitChar).reverse).foldl (fun a c => a * 10 + (c.toNat - 48)) 0
      = Nat.ofDigits 10 ds := by
  induction ds with
  | nil => simp [Nat.ofDigits]
  | cons d r ih =>
    have hdr : ∀ x ∈ r, x < 10 := fun x hx => hd x (List.mem_cons_of_mem _ hx)
    rw [List.map_cons, List.reverse_cons, List.foldl_append]
    rw [ih hdr, Nat.ofDigits_cons]
    simp only [List.foldl_cons, List.foldl_nil]
    rw [digitChar_val (hd d (List.mem_cons_self d r))]
    ring

theorem decAcc_natDigitsStr (n : ℕ) : decAcc (natDigitsStr n) = n := by
  rw [decAcc]
  have hall : (natDigitsStr n).takeWhile (fun c => c.isDigit) = natDigitsStr n :=
    List.takeWhile_eq_self_iff.mpr (natDigitsStr_all_digits n)
  rw [hall, natDigitsStr]
  by_cases hn : n = 0
  · simp [hn]
  · rw [if_neg hn, decDigits_eq_digits,
      foldl_digits_rev _ (fun d hd => mem_digits_lt_10 hd), Nat.ofDigits_digits]

theorem toNat_bounds_of_isDigit {c : Char} (h : c.isDigit = true) :
    48 ≤ c.toNat ∧ c.toNat ≤ 57 := by
  rw [Char.isDigit] at h
  simp only [Bool.and_eq_true, decide_eq_true_eq] at h
  obtain ⟨h1, h2⟩ := h
  exact ⟨by exact_mod_cast h1, by exact_mod_cast h2⟩

theorem isCSpace_eq_false_of_isDigit {c : Char} (h : c.isDigit = true) :
    isCSpace c = false := by
  obtain ⟨h1, h2⟩ := toNat_bounds_of_isDigit h
  rw [isCSpace]
  simp only [decide_eq_false_iff_not, not_or, not_and]
  refine ⟨fun he => ?_, fun h9 => ?_⟩
  · rw [he] at h1 h2; revert h1; decide
  · omega

theorem dropWhile_isCSpace_of_digits {l : List Char}
    (h : ∀ c ∈ l, c.isDigit = true) : l.dropWhile isCSpace = l := by
  cases l with
  | nil => rfl
  | cons c r =>
    rw [List.dropWhile_cons_of_neg]
    simp [isCSpace_eq_false_of_isDigit (h c (List.mem_cons_self c r))]

theorem atoiChars_digits {l : List Char} (h : ∀ c ∈ l, c.isDigit = true) :
    atoiChars l = (decAcc l : ℤ) := by
  rw [atoiChars]
  simp only [dropWhile_isCSpace_of_digits h]
  split
  · exact absurd (h '-' (List.mem_cons_self _ _)) (by decide)
  · exact absurd (h '+' (List.mem_cons_self _ _)) (by decide)
  · rfl

theorem atoi_intStr (i : ℤ) : atoiChars (intStr i) = i := by
  rw [intStr]
  by_cases hi : i < 0
  · rw [if_pos hi, atoiChars]
    have hdw : ('-' :: natDigitsStr i.natAbs).dropWhile isCSpace
        = '-' :: natDigitsStr i.natAbs := by
      rw [List.dropWhile_cons_of_neg]
      decide
    simp only [hdw, decAcc_natDigitsStr]
    omega
  · rw [if_neg hi, atoiChars_digits (natDigitsStr_all_digits _), decAcc_natDigitsStr]
    omega

theorem intStr_injective {a b : ℤ} (h : intStr a = intStr b) : a = b := by
  have := congrArg atoiChars h
  rwa [atoi_intStr, atoi_intStr] at this

/-! ## Theorems: segment-string round trip -/

theorem splitOnC_ne_nil (sep : Char) (l : List Char) : splitOnC sep l ≠ [] := by
  cases l with
  | nil => simp [splitOnC]
  | cons c r =>
    rw [splitOnC]
    split
    · simp
    · split
      · simp
      · simp

theorem splitOnC_of_not_mem {sep : Char} {a : List Char} (h : sep ∉ a) :
    splitOnC sep a = [a] := by
  induction a with
  | nil => rfl
  | cons c r ih =>
    have hcs : c ≠ sep := fun hc => h (hc ▸ List.mem_cons_self c r)
    have hr : sep ∉ r := fun hr => h (List.mem_cons_of_mem c hr)
    rw [splitOnC, if_neg (by simpa using fun hc => hcs hc), ih hr]

theorem splitOnC_append {sep : Char} {a : List Char} (r : List Char) (h : sep ∉ a) :
    splitOnC sep (a ++ sep :: r) = a :: splitOnC sep r := by
  induction a with
  | nil =>
    rw [List.nil_append, splitOnC, if_pos rfl]
  | cons c a' ih =>
    have hcs : c ≠ sep := fun hc => h (hc ▸ List.mem_cons_self c a')
    have ha' : sep ∉ a' := fun hx => h (List.mem_cons_of_mem c hx)
    rw [List.cons_append, splitOnC, if_neg (by simpa using fun hc => hcs hc), ih ha']

theorem pipe_not_mem_natDigitsStr (n : ℕ) : '|' ∉ natDigitsStr n := by
  intro hm
  have := natDigitsStr_all_digits n '|' hm
  exact absurd this (by decide)

theorem pipe_not_mem_intStr (i : ℤ) : '|' ∉ intStr i := by
  intro hm
  rw [intStr] at hm
  by_cases hi : i < 0
  · rw [if_pos hi] at hm
    rcases List.mem_cons.mp hm with h1 | h2
    · exact absurd h1 (by decide)
    · exact pipe_not_mem_natDigitsStr _ h2
  · rw [if_neg hi] at hm
    exact pipe_not_mem_natDigitsStr _ hm

theorem pipe_not_mem_boolStr (b : Bool) : '|' ∉ boolStr b := by
  cases b <;> decide

theorem splitOnC_segString (seg : TextSegment)
    (ht : '|' ∉ seg.text) (hf : '|' ∉ seg.fg_color) (hb : '|' ∉ seg.bg_color) :
    splitOnC '|' (segString seg)
      = [seg.text, seg.fg_color, seg.bg_color, boolStr seg.bold, intStr seg.visible_pos] := by
  rw [segString, splitOnC_append _ ht, splitOnC_append _ hf, splitOnC_append _ hb,
    splitOnC_append _ (pipe_not_mem_boolStr seg.bold),
    splitOnC_of_not_mem (pipe_not_mem_intStr seg.visible_pos)]

theorem boolStr_eq_true_iff (b : Bool) : (boolStr b = "true".toList) = b := by
  cases b <;> decide

theorem loadSegment_segString (prev seg : TextSegment)
    (ht : '|' ∉ seg.text) (hf : '|' ∉ seg.fg_color) (hb : '|' ∉ seg.bg_color) :
    loadSegment prev (segString seg) = seg := by
  rw [loadSegment, splitOnC_segString seg ht hf hb]
  rcases seg with ⟨t, f, g, bo, p⟩
  simp only [List.take, List.getD, List.get?, List.getElem?_cons_zero,
    List.getElem?_cons_succ, Option.getD_some]
  congr 1
  · cases bo <;> decide
  · exact atoi_intStr p

theorem mapIdx_load_save (segs : List TextSegment) (prev : ℕ → TextSegment)
    (hseg : ∀ s ∈ segs, '|' ∉ s.text ∧ '|' ∉ s.fg_color ∧ '|' ∉ s.bg_color) :
    List.mapIdx (fun i s => loadSegment (prev i) s) (segs.map segString) = segs := by
  induction segs generalizing prev with
  | nil => rfl
  | cons a l ih =>
    obtain ⟨h1, h2, h3⟩ := hseg a (List.mem_cons_self a l)
    rw [List.map_cons, List.mapIdx_cons, loadSegment_segString _ _ h1 h2 h3,
      ih (fun i => prev (i + 1)) (fun s hs => hseg s (List.mem_cons_of_mem a hs))]

/-! ## Theorems for the claims on hashing and caching -/

/-- C1: the claim requires `generate_hash` to be computed in-process
without invoking any external checksum utility, and to equal the POSIX
`cksum` value.  The code instead pipes the input to the external `cksum`
program, and on `popen`/`fgets` failure falls back to a `h*31+byte` hash
that differs from `cksum` (so the result also depends on the environment,
not only on the input).  Evaluated at the failing input `"abc"`. -/
theorem c1_generate_hash_shells_out :
    (" | cksum".toList <:+ genHashCommand ("abc".toList))
    ∧ generate_hash ("abc".toList) none ≠ cksum (strBytes ("abc".toList))
    ∧ generate_hash ("abc".toList) none
        ≠ generate_hash ("abc".toList) (some ("1219131554 3".toList)) :=
  ⟨by decide, by decide, by decide⟩

/-- C2 (counterexample): the round-trip property fails as stated — a
segment whose text contains the field separator `'|'` is mangled by
`load_line_cache`, which re-splits the persisted string on every pipe. -/
theorem c2_pipe_in_text_breaks_roundtrip :
    load_line_cache
        (save_line_cache ("k".toList) ⟨[⟨"a|b".toList, [], [], false, 0⟩], 3⟩ 0)
        (fun _ => ⟨[], [], [], false, 0⟩)
      ≠ ⟨[⟨"a|b".toList, [], [], false, 0⟩], 3⟩
    ∧ (load_line_cache
        (save_line_cache ("k".toList) ⟨[⟨"a|b".toList, [], [], false, 0⟩], 3⟩ 0)
        (fun _ => ⟨[], [], [], false, 0⟩)).segments
      = [⟨"a".toList, "b".toList, [], false, 0⟩] :=
  ⟨by decide, by decide⟩

/-- C2 (amended): for every `LineData` whose segment texts and colours
contain no `'|'` byte (and with at most `MAX_SEGMENTS` segments, the
capacity of the `LineData` array), `save_line_cache` followed by
`load_line_cache` restores every field — `segment_count`,
`visible_length`, and each segment's text, colours, bold flag and visible
position — whatever the cache key, timestamp and previous contents of the
destination array. -/
theorem c2_save_load_roundtrip (key : List Char) (ld : LineData) (t : ℤ)
    (prev : ℕ → TextSegment)
    (hlen : ld.segments.length ≤ MAX_SEGMENTS)
    (hseg : ∀ s ∈ ld.segments, '|' ∉ s.text ∧ '|' ∉ s.fg_color ∧ '|' ∉ s.bg_color) :
    load_line_cache (save_line_cache key ld t) prev = ld := by
  rcases ld with ⟨segs, vl⟩
  rw [save_line_cache, load_line_cache]
  simp only [Option.getD_some]
  congr 1
  rw [List.take_of_length_le (by simpa using hlen)]
  exact mapIdx_load_save segs prev hseg

theorem c2_save_load_roundtrip_witness :
    ((⟨[⟨"hi".toList, "#ffffff".toList, [], false, 0⟩], 2⟩ : LineData).segments.length
        ≤ MAX_SEGMENTS)
    ∧ load_line_cache
        (save_line_cache ("k1".toList)
          ⟨[⟨"hi".toList, "#ffffff".toList, [], false, 0⟩], 2⟩ 99)
        (fun _ => ⟨[], [], [], false, 0⟩)
      = ⟨[⟨"hi".toList, "#ffffff".toList, [], false, 0⟩], 2⟩ :=
  ⟨by decide,
    c2_save_load_roundtrip ("k1".toList)
      ⟨[⟨"hi".toList, "#ffffff".toList, [], false, 0⟩], 2⟩ 99
      (fun _ => ⟨[], [], [], false, 0⟩) (by decide) (by decide)⟩

/-- C6: the claim says a missing optional field defaults to `bold = false`
and `position = 0` on read.  The code never writes those defaults: a
segment string with fewer than five fields leaves the corresponding
members of the destination slot untouched, so they keep whatever stale
value the (uninitialised, `malloc`ed) array already held.  Evaluated at
the failing input: segment string `"a|b"` read into a slot previously
holding `bold = true`, `visible_pos = 7`, `bg_color = "z"`. -/
theorem c6_missing_fields_keep_stale_values :
    loadSegment ⟨"x".toList, "y".toList, "z".toList, true, 7⟩ ("a|b".toList)
      = ⟨"a".toList, "b".toList, "z".toList, true, 7⟩
    ∧ (loadSegment ⟨"x".toList, "y".toList, "z".toList, true, 7⟩ ("a|b".toList)).bold
      ≠ false
    ∧ (loadSegment ⟨"x".toList, "y".toList, "z".toList, true, 7⟩ ("a|b".toList)).visible_pos
      ≠ 0 :=
  ⟨by decide, by decide, by decide⟩

/-- C9: the claim says `save_incremental_cache` writes to a temporary file
and renames it over the target.  The code hands the final path straight to
`json_dump_file`, which truncates the target in place before writing: the
effect trace opens the final path for truncating write and contains no
rename, so a crash between the truncating open and the completed write
destroys the previously valid state. -/
theorem c9_no_temp_file_no_rename :
    save_incremental_cache_trace.head? = some (FsOp.openTruncate incremental_cache_file)
    ∧ (save_incremental_cache_trace.all fun op => !op.isRename) = true
    ∧ (save_incremental_cache_trace.countP fun op => op.isRename) = 0 :=
  ⟨by decide, by decide, by decide⟩

/-- C7 (counterexample): two configuration records that differ in exactly
one numeric field — `font_width` `0.601` versus `0.602` — serialize to the
same canonical string, because `%.2f` collapses both to `0.60`; the claim
that the canonical serialization never produces the same string for such a
pair is false. -/
theorem c7_float_field_collision :
    config_string cfgA = config_string cfgB
    ∧ cfgA.font_width ≠ cfgB.font_width
    ∧ cfgA.font_family = cfgB.font_family ∧ cfgA.font_size = cfgB.font_size
    ∧ cfgA.font_height = cfgB.font_height ∧ cfgA.font_weight = cfgB.font_weight
    ∧ cfgA.width = cfgB.width ∧ cfgA.height = cfgB.height
    ∧ cfgA.wrap = cfgB.wrap ∧ cfgA.tab_size = cfgB.tab_size := by
  have h1 : fmt2 ((601 : ℚ) / 1000) = "0.60".toList := by
    have hr : roundQ (((601 : ℚ) / 1000) * 100) = 60 := by norm_num [roundQ]
    rw [fmt2, hr]; decide
  have h2 : fmt2 ((602 : ℚ) / 1000) = "0.60".toList := by
    have hr : roundQ (((602 : ℚ) / 1000) * 100) = 60 := by norm_num [roundQ]
    rw [fmt2, hr]; decide
  refine ⟨?_, by norm_num [cfgA, cfgB], rfl, rfl, rfl, rfl, rfl, rfl, rfl, rfl⟩
  show config_string cfgA = config_string cfgB
  rw [config_string, config_string]
  rw [show cfgA.font_width = (601 : ℚ) / 1000 from rfl,
    show cfgB.font_width = (602 : ℚ) / 1000 from rfl, h1, h2]
  rfl

/-- C7 (amended): two configuration records that are equal in every
serialized field except exactly one of the integer-formatted numeric
fields (`font_size`, `font_weight`, `width`, `height`, `tab_size`) always
produce different canonical strings; for the two floating-point fields,
serialized at two decimal places by `%.2f`, values rounding to the same
two-decimal representation produce the same string (see the
counterexample). -/
theorem c7_int_field_changes_string (c c' : Config)
    (hff : c.font_family = c'.font_family)
    (hfw : c.font_width = c'.font_width)
    (hfh : c.font_height = c'.font_height)
    (hwr : c.wrap = c'.wrap)
    (hone :
      (c.font_size ≠ c'.font_size ∧ c.font_weight = c'.font_weight ∧ c.width = c'.width
        ∧ c.height = c'.height ∧ c.tab_size = c'.tab_size)
      ∨ (c.font_size = c'.font_size ∧ c.font_weight ≠ c'.font_weight ∧ c.width = c'.width
        ∧ c.height = c'.height ∧ c.tab_size = c'.tab_size)
      ∨ (c.font_size = c'.font_size ∧ c.font_weight = c'.font_weight ∧ c.width ≠ c'.width
        ∧ c.height = c'.height ∧ c.tab_size = c'.tab_size)
      ∨ (c.font_size = c'.font_size ∧ c.font_weight = c'.font_weight ∧ c.width = c'.width
        ∧ c.height ≠ c'.height ∧ c.tab_size = c'.tab_size)
      ∨ (c.font_size = c'.font_size ∧ c.font_weight = c'.font_weight ∧ c.width = c'.width
        ∧ c.height = c'.height ∧ c.tab_size ≠ c'.tab_size)) :
    config_string c ≠ config_string c' := by
  intro heq
  rw [config_string, config_string, ← hff, ← hfw, ← hfh, ← hwr] at heq
  rcases hone with ⟨hne, h2, h3, h4, h5⟩ | ⟨h1, hne, h3, h4, h5⟩ |
    ⟨h1, h2, hne, h4, h5⟩ | ⟨h1, h2, h3, hne, h5⟩ | ⟨h1, h2, h3, h4, hne⟩
  · rw [← h2, ← h3, ← h4, ← h5] at heq
    simp only [List.append_cancel_left_eq, List.cons.injEq, true_and,
      List.append_cancel_right_eq] at heq
    exact hne (intStr_injective heq)
  · rw [← h1, ← h3, ← h4, ← h5] at heq
    simp only [List.append_cancel_left_eq, List.cons.injEq, true_and,
      List.append_cancel_right_eq] at heq
    exact hne (intStr_injective heq)
  · rw [← h1, ← h2, ← h4, ← h5] at heq
    simp only [List.append_cancel_left_eq, List.cons.injEq, true_and,
      List.append_cancel_right_eq] at heq
    exact hne (intStr_injective heq)
  · rw [← h1, ← h2, ← h3, ← h5] at heq
    simp only [List.append_cancel_left_eq, List.cons.injEq, true_and,
      List.append_cancel_right_eq] at heq
    exact hne (intStr_injective heq)
  · rw [← h1, ← h2, ← h3, ← h4] at heq
    simp only [List.append_cancel_left_eq, List.cons.injEq, true_and,
      List.append_cancel_right_eq] at heq
    exact hne (intStr_injective heq)

theorem c7_int_field_changes_string_witness :
    (cfgA.font_size ≠ cfgC.font_size ∧ cfgA.font_weight = cfgC.font_weight
      ∧ cfgA.width = cfgC.width ∧ cfgA.height = cfgC.height
      ∧ cfgA.tab_size = cfgC.tab_size)
    ∧ config_string cfgA ≠ config_string cfgC :=
  ⟨⟨by decide, rfl, rfl, rfl, rfl⟩,
    c7_int_field_changes_string cfgA cfgC rfl rfl rfl rfl
      (Or.inl ⟨by decide, rfl, rfl, rfl, rfl⟩)⟩

/-- C8 (counterexample): the global fingerprint does not change whenever a
single line's content changes — the two one-line inputs `"AAAAA"` and
`0x40 0x45 0x80 0x5C 0xF6` have different content but identical `cksum`
(2239939768), hence identical per-line hash strings and an identical
global fingerprint. -/
theorem c8_content_change_same_fingerprint :
    ([("AAAAA".toList)] : List (List Char))
        ≠ [['@', 'E', Char.ofNat 128, '\\', Char.ofNat 246]]
    ∧ global_input_hash [("AAAAA".toList)]
        = global_input_hash [['@', 'E', Char.ofNat 128, '\\', Char.ofNat 246]] :=
  ⟨by decide, by decide⟩

/-- C8 (amended): the global fingerprint is a function of the ordered list
of per-line `cksum` values alone — two runs whose lines are byte-identical
in the same order (or, more generally, whose per-line hash lists agree)
get the identical fingerprint; a content change or a swap of
distinct-content lines changes it only when the per-line hash lists (and
the hash of their concatenation) differ, and colliding `cksum` values
yield the same fingerprint. -/
theorem c8_fingerprint_depends_only_on_line_hashes (ls1 ls2 : List (List Char))
    (h : ls1.map (fun l => cksum (strBytes l)) = ls2.map (fun l => cksum (strBytes l))) :
    global_input_hash ls1 = global_input_hash ls2 := by
  have e1 : ∀ ls : List (List Char), ls.map lineHashStr
      = (ls.map (fun l => cksum (strBytes l))).map natDigitsStr := by
    intro ls
    rw [List.map_map]
    rfl
  rw [global_input_hash, global_input_hash, e1, e1, h]

theorem c8_fingerprint_depends_only_on_line_hashes_witness :
    ([("AAAAA".toList)].map (fun l => cksum (strBytes l))
      = [['@', 'E', Char.ofNat 128, '\\', Char.ofNat 246]].map (fun l => cksum (strBytes l)))
    ∧ global_input_hash [("AAAAA".toList)]
      = global_input_hash [['@', 'E', Char.ofNat 128, '\\', Char.ofNat 246]] :=
  ⟨by decide,
    c8_fingerprint_depends_only_on_line_hashes
      [("AAAAA".toList)] [['@', 'E', Char.ofNat 128, '\\', Char.ofNat 246]] (by decide)⟩

/-! ## Theorems: the parse loop invariant -/

theorem posSumsFrom_append (a : ℤ) (l : List ℕ) (n : ℕ) :
    posSumsFrom a (l ++ [n]) = posSumsFrom a l ++ [a + (l.sum : ℤ)] := by
  induction l generalizing a with
  | nil => simp [posSumsFrom]
  | cons m l' ih =>
    rw [List.cons_append, posSumsFrom, ih (a + m), posSumsFrom, List.cons_append,
      List.sum_cons, Nat.cast_add]
    congr 3
    ring

theorem parseInv_of_eq_fields {st st' : ParseState} (hseg : st'.segments = st.segments)
    (hvp : st'.visiblePos = st.visiblePos) (h : ParseInv st) : ParseInv st' := by
  rw [ParseInv, hseg, hvp]
  exact h

theorem flush_inv {st : ParseState} (h : ParseInv st) : ParseInv (flush st) := by
  obtain ⟨hlen, hpos, hvp⟩ := h
  rw [flush]
  split
  case isTrue hc =>
    refine ⟨by simpa using hc.2, ?_, ?_⟩
    · simp only [List.map_append, List.map_cons, List.map_nil]
      rw [hpos, posSums, posSums, posSumsFrom_append]
      simp [segLen, hvp]
    · rw [hvp]
      simp only [List.map_append, List.map_cons, List.map_nil, List.sum_append,
        List.sum_cons, List.sum_nil, add_zero, Nat.cast_add]
      simp [segLen]
  case isFalse => exact ⟨hlen, hpos, hvp⟩

theorem addChar_inv {st : ParseState} (c : Char) (h : ParseInv st) :
    ParseInv (addChar st c) := by
  rw [addChar]
  split
  · exact h
  · exact h

theorem stepText_inv {st : ParseState} (c : Char) (h : ParseInv st) :
    ParseInv (stepText st c) := by
  rw [stepText]
  split
  · exact h
  · exact addChar_inv c h

theorem step_inv {st : ParseState} (c : Char) (h : ParseInv st) :
    ParseInv (step st c) := by
  rcases st with ⟨segs, sty, vp, ct, mode⟩
  cases mode with
  | text => exact stepText_inv c h
  | sawEsc =>
    show ParseInv (if c = '[' then _ else _)
    split
    · exact parseInv_of_eq_fields rfl rfl (flush_inv h)
    · exact stepText_inv c (addChar_inv escChar (parseInv_of_eq_fields rfl rfl h))
  | inEsc codes =>
    show ParseInv (if c = 'm' then _ else _)
    split
    · exact parseInv_of_eq_fields rfl rfl h
    · split
      · exact parseInv_of_eq_fields rfl rfl h
      · exact stepText_inv c (parseInv_of_eq_fields rfl rfl h)

theorem foldl_step_inv (l : List Char) {st : ParseState} (h : ParseInv st) :
    ParseInv (l.foldl step st) := by
  induction l generalizing st with
  | nil => exact h
  | cons c r ih => exact ih (step_inv c h)

theorem finishState_inv {st : ParseState} (h : ParseInv st) :
    ParseInv (finishState st) := by
  rcases st with ⟨segs, sty, vp, ct, mode⟩
  cases mode with
  | text => exact flush_inv h
  | sawEsc => exact flush_inv (addChar_inv escChar (parseInv_of_eq_fields rfl rfl h))
  | inEsc codes => exact flush_inv (parseInv_of_eq_fields rfl rfl h)

theorem parseInit_inv : ParseInv parseInit :=
  ⟨by simp [parseInit, MAX_SEGMENTS], by simp [parseInit, posSums, posSumsFrom],
    by simp [parseInit]⟩

theorem parse_ansi_line_inv (line : List Char) :
    ParseInv (finishState (line.foldl step parseInit)) :=
  finishState_inv (foldl_step_inv line parseInit_inv)

theorem chain_le_posSumsFrom (l : List ℕ) (a : ℤ) :
    List.Chain' (· ≤ ·) (posSumsFrom a l) := by
  induction l generalizing a with
  | nil => simp [posSumsFrom]
  | cons n r ih =>
    rw [posSumsFrom, List.chain'_cons']
    refine ⟨?_, ih (a + n)⟩
    intro y hy
    cases r with
    | nil => simp [posSumsFrom] at hy
    | cons m r' =>
      rw [posSumsFrom, List.head?_cons, Option.mem_def, Option.some_inj] at hy
      omega

theorem all_pos_le_of_posSums (segs : List TextSegment) (a : ℤ)
    (h : segs.map TextSegment.visible_pos = posSumsFrom a (segs.map segLen)) :
    (segs.all fun s => s.visible_pos + (segLen s : ℤ)
      ≤ a + ((segs.map segLen).sum : ℤ)) = true := by
  induction segs generalizing a with
  | nil => rfl
  | cons s r ih =>
    rw [List.map_cons, List.map_cons, posSumsFrom] at h
    obtain ⟨h1, h2⟩ := List.cons.inj h
    rw [List.all_cons, Bool.and_eq_true]
    refine ⟨?_, ?_⟩
    · rw [decide_eq_true_iff, h1, List.map_cons, List.sum_cons, Nat.cast_add]
      omega
    · have := ih (a + segLen s) h2
      rw [List.all_eq_true] at this ⊢
      intro x hx
      have hb := this x hx
      rw [decide_eq_true_iff] at hb ⊢
      rw [List.map_cons, List.sum_cons, Nat.cast_add]
      omega

/-- C5: every `LineData` computed fresh by `parse_ansi_line` satisfies the
partition invariant — the segment positions are exactly the running totals
of the segment codepoint lengths (first at 0, each starting where the
previous ends, the last ending at `visible_length`), `visible_length` is
the total of the segment lengths, positions are non-decreasing, and no
segment extends past `visible_length`. -/
theorem c5_segment_partition (line : List Char) :
    (parse_ansi_line line).segments.map TextSegment.visible_pos
      = posSums ((parse_ansi_line line).segments.map segLen)
    ∧ (parse_ansi_line line).visible_length
      = (((parse_ansi_line line).segments.map segLen).sum : ℤ)
    ∧ List.Chain' (· ≤ ·) ((parse_ansi_line line).segments.map TextSegment.visible_pos)
    ∧ ((parse_ansi_line line).segments.all fun s =>
        s.visible_pos + (segLen s : ℤ) ≤ (parse_ansi_line line).visible_length) = true := by
  obtain ⟨hlen, hpos, hvp⟩ := parse_ansi_line_inv line
  have hs : (parse_ansi_line line).segments
      = (finishState (line.foldl step parseInit)).segments := rfl
  have hv : (parse_ansi_line line).visible_length
      = (finishState (line.foldl step parseInit)).visiblePos := rfl
  refine ⟨?_, ?_, ?_, ?_⟩
  · rw [hs]; exact hpos
  · rw [hs, hv]; exact hvp
  · rw [hs, hpos]; exact chain_le_posSumsFrom _ 0
  · have hall := all_pos_le_of_posSums
      (finishState (line.foldl step parseInit)).segments 0 hpos
    rw [hs, hv, hvp]
    simpa using hall

/-- C10: `parse_ansi_line` never emits more than `MAX_SEGMENTS` segments,
`visible_length` counts exactly the codepoints of the segments actually
emitted (suppressed text contributes nothing), and once `MAX_SEGMENTS`
segments exist a flush is a no-op: it emits no segment and does not
advance the visible position. -/
theorem c10_segment_cap (line : List Char) (st : ParseState) :
    (parse_ansi_line line).segments.length ≤ MAX_SEGMENTS
    ∧ (parse_ansi_line line).visible_length
      = (((parse_ansi_line line).segments.map segLen).sum : ℤ)
    ∧ (MAX_SEGMENTS ≤ st.segments.length → flush st = st) := by
  obtain ⟨hlen, hpos, hvp⟩ := parse_ansi_line_inv line
  refine ⟨hlen, hvp, ?_⟩
  intro hc
  rw [flush, if_neg]
  intro hcond
  omega

theorem c10_segment_cap_witness :
    (MAX_SEGMENTS
      ≤ (⟨List.replicate 1000 ⟨['x'], [], [], false, 0⟩, styleInit, 0, ['y'],
          Mode.text⟩ : ParseState).segments.length)
    ∧ (parse_ansi_line (['a'])).segments.length ≤ MAX_SEGMENTS
    ∧ flush ⟨List.replicate 1000 ⟨['x'], [], [], false, 0⟩, styleInit, 0, ['y'], Mode.text⟩
      = ⟨List.replicate 1000 ⟨['x'], [], [], false, 0⟩, styleInit, 0, ['y'], Mode.text⟩ :=
  ⟨by simp [MAX_SEGMENTS],
    (c10_segment_cap (['a'])
      ⟨List.replicate 1000 ⟨['x'], [], [], false, 0⟩, styleInit, 0, ['y'], Mode.text⟩).1,
    (c10_segment_cap (['a'])
      ⟨List.replicate 1000 ⟨['x'], [], [], false, 0⟩, styleInit, 0, ['y'], Mode.text⟩).2.2
      (by simp [MAX_SEGMENTS])⟩

/-! ## Theorems: plain text runs (no escape introducer) -/

theorem hasEscIntro_cons_false {c : Char} {r : List Char}
    (h : hasEscIntro (c :: r) = false) :
    ¬(c = escChar ∧ r.head? = some '[') ∧ hasEscIntro r = false := by
  rw [hasEscIntro, Bool.or_eq_false_iff] at h
  obtain ⟨h1, h2⟩ := h
  refine ⟨?_, h2⟩
  intro hx
  rw [decide_eq_false_iff_not] at h1
  exact h1 hx

theorem step_after_lone_esc {st : ParseState} (hm : st.mode = Mode.text) {c2 : Char}
    (hne : c2 ≠ '[') :
    step (step st escChar) c2 = step (addChar st escChar) c2 := by
  rcases st with ⟨segs, sty, vp, ct, mode⟩
  rcases hm
  show step (stepText _ escChar) c2 = _
  rw [stepText, if_pos rfl]
  show (if c2 = '[' then _ else _) = _
  rw [if_neg hne, addChar]
  split
  · rfl
  · rfl

theorem textRunResult_cons {st : ParseState} (c : Char) (l : List Char)
    (hcap : st.currentText.length < MAX_LINE_LENGTH - 1) (hm : st.mode = Mode.text)
    (hor : l ≠ [] ∨ c ≠ escChar) :
    textRunResult st (c :: l) = textRunResult (addChar st c) l := by
  rcases st with ⟨segs, sty, vp, ct, mode⟩
  rcases hm
  rw [addChar, if_pos hcap]
  cases l with
  | nil =>
    rcases hor with hor | hor
    · exact absurd rfl hor
    · rw [textRunResult, textRunResult]
      rw [if_neg (by simpa using hor), if_neg (by simp)]
      simp
  | cons d l2 =>
    rw [textRunResult, textRunResult, List.getLast?_cons_cons]
    split
    · rw [List.dropLast_cons₂]
      simp
    · simp

theorem foldl_step_text_run (l : List Char) :
    ∀ (st : ParseState), st.mode = Mode.text → hasEscIntro l = false →
    st.currentText.length + l.length ≤ MAX_LINE_LENGTH - 1 →
    l.foldl step st = textRunResult st l := by
  induction l with
  | nil =>
    intro st hm _ _
    rcases st with ⟨segs, sty, vp, ct, mode⟩
    rcases hm
    rw [List.foldl_nil, textRunResult, if_neg (by simp)]
    simp
  | cons c r ih =>
    intro st hm hni hcap
    obtain ⟨hnp, hnir⟩ := hasEscIntro_cons_false hni
    have hctlt : st.currentText.length < MAX_LINE_LENGTH - 1 := by
      have := hcap
      simp only [List.length_cons] at this
      omega
    by_cases hc : c = escChar
    · subst hc
      cases r with
      | nil =>
        rcases st with ⟨segs, sty, vp, ct, mode⟩
        rcases hm
        rw [List.foldl_cons, List.foldl_nil]
        show stepText _ escChar = _
        rw [stepText, if_pos rfl, textRunResult, if_pos (by simp)]
        simp
      | cons c2 r2 =>
        have hne2 : c2 ≠ '[' := by
          intro hx
          exact hnp ⟨rfl, by rw [hx]; rfl⟩
        rw [List.foldl_cons, List.foldl_cons,
          step_after_lone_esc hm hne2, ← List.foldl_cons]
        rw [ih (addChar st escChar) (by rw [addChar]; split <;> exact hm) hnir ?hcap2]
        case hcap2 =>
          rw [addChar, if_pos hctlt]
          simp only [List.length_append, List.length_cons, List.length_nil] at hcap ⊢
          omega
        exact (textRunResult_cons escChar (c2 :: r2) hctlt hm (Or.inl (by simp))).symm
    · rw [List.foldl_cons]
      have hstep : step st c = addChar st c := by
        rcases st with ⟨segs, sty, vp, ct, mode⟩
        rcases hm
        show stepText _ c = _
        rw [stepText, if_neg hc]
      rw [hstep,
        ih (addChar st c) (by rw [addChar]; split <;> exact hm) hnir ?hcap3]
      case hcap3 =>
        rw [addChar, if_pos hctlt]
        simp only [List.length_append, List.length_cons, List.length_nil] at hcap ⊢
        omega
      exact (textRunResult_cons c r hctlt hm (Or.inr hc)).symm

/-- C4 (counterexample): on the empty line `parse_ansi_line` emits no
segment at all (the final flush requires pending text), so the claim that
every escape-free line — including the empty line — yields exactly one
segment is false. -/
theorem c4_empty_line_no_segment :
    (parse_ansi_line []).segments = []
    ∧ (parse_ansi_line []).segments.length ≠ 1
    ∧ (parse_ansi_line []).visible_length = 0 :=
  ⟨by decide, by decide, by decide⟩

/-- C4 (amended): every non-empty line that contains no ESC-`'['`
introducer (and fits the `MAX_LINE_LENGTH` input buffer, as every line
delivered by `read_input` does) parses to exactly one segment at position
0 with the default style — `fg = TEXT_COLOR`, empty background, bold off —
and `visible_length` equal to the line's decoded-codepoint count. -/
theorem c4_plain_line_one_segment (line : List Char)
    (hne : line ≠ []) (hni : hasEscIntro line = false)
    (hlen : line.length ≤ MAX_LINE_LENGTH - 1) :
    parse_ansi_line line
      = ⟨[⟨line, TEXT_COLOR, [], false, 0⟩], (utf8_strlen line : ℤ)⟩ := by
  have hfold := foldl_step_text_run line parseInit rfl hni
    (by simpa [parseInit] using hlen)
  show (⟨(finishState (line.foldl step parseInit)).segments,
      (finishState (line.foldl step parseInit)).visiblePos⟩ : LineData) = _
  rw [hfold, textRunResult]
  split
  case isTrue hlast =>
    have hdrop : line.dropLast ++ [escChar] = line :=
      List.dropLast_append_getLast? escChar (by simpa using hlast)
    have hdlen : line.dropLast.length < MAX_LINE_LENGTH - 1 := by
      have : line.dropLast.length < line.length := by
        cases line with
        | nil => exact absurd rfl hne
        | cons a l => simp
      omega
    show (⟨(flush (addChar _ escChar)).segments,
        (flush (addChar _ escChar)).visiblePos⟩ : LineData) = _
    rw [addChar]
    rw [if_pos (by simpa [parseInit] using hdlen)]
    simp only [parseInit, List.nil_append]
    rw [flush]
    rw [if_pos ⟨by simp, by simp [MAX_SEGMENTS]⟩]
    simp [styleInit, hdrop]
  case isFalse hlast =>
    show (⟨(flush _).segments, (flush _).visiblePos⟩ : LineData) = _
    simp only [parseInit, List.nil_append]
    rw [flush]
    rw [if_pos ⟨by simpa using hne, by simp [MAX_SEGMENTS]⟩]
    simp [styleInit]

theorem c4_plain_line_one_segment_witness :
    (("hi".toList : List Char) ≠ [] ∧ hasEscIntro ("hi".toList) = false
      ∧ ("hi".toList).length ≤ MAX_LINE_LENGTH - 1)
    ∧ parse_ansi_line ("hi".toList)
      = ⟨[⟨"hi".toList, TEXT_COLOR, [], false, 0⟩], (utf8_strlen ("hi".toList) : ℤ)⟩ :=
  ⟨⟨by decide, by decide, by decide⟩,
    c4_plain_line_one_segment ("hi".toList) (by decide) (by decide) (by decide)⟩

/-! ## Theorems: unterminated escape bodies -/

theorem foldl_step_inEsc (body : List Char) :
    ∀ (st : ParseState) (codes : List Char), st.mode = Mode.inEsc codes →
    'm' ∉ body → codes.length + body.length ≤ 63 →
    body.foldl step st = { st with mode := Mode.inEsc (codes ++ body) } := by
  induction body with
  | nil =>
    intro st codes hm _ _
    rcases st with ⟨segs, sty, vp, ct, mode⟩
    rcases hm
    simp
  | cons c r ih =>
    intro st codes hm hnm hlen
    rcases st with ⟨segs, sty, vp, ct, mode⟩
    rcases hm
    have hcm : c ≠ 'm' := fun hx => hnm (hx ▸ List.mem_cons_self c r)
    have hnr : 'm' ∉ r := fun hx => hnm (List.mem_cons_of_mem c hx)
    rw [List.foldl_cons]
    have e1 : step ⟨segs, sty, vp, ct, Mode.inEsc codes⟩ c
        = ⟨segs, sty, vp, ct, Mode.inEsc (codes ++ [c])⟩ := by
      show (if c = 'm' then _ else _) = _
      rw [if_neg hcm, if_pos (by simp only [List.length_cons] at hlen; omega)]
    rw [e1, ih _ (codes ++ [c]) rfl hnr
      (by simp only [List.length_append, List.length_cons, List.length_nil] at hlen ⊢; omega)]
    simp

theorem flush_blocked (st : ParseState) :
    ¬((flush st).currentText ≠ [] ∧ (flush st).segments.length < MAX_SEGMENTS) := by
  rw [flush]
  split
  case isTrue h => simp
  case isFalse h => exact h

theorem flush_of_flush_restyled (st : ParseState) (s' : Style) (m' : Mode) :
    flush { flush st with style := s', mode := m' }
      = { flush st with style := s', mode := m' } := by
  rw [flush]
  rw [if_neg]
  exact flush_blocked st

theorem flush_mode_irrelevant (segs : List TextSegment) (sty : Style) (vp : ℤ)
    (ct : List Char) (m m' : Mode) :
    (flush ⟨segs, sty, vp, ct, m⟩).segments = (flush ⟨segs, sty, vp, ct, m'⟩).segments
    ∧ (flush ⟨segs, sty, vp, ct, m⟩).visiblePos
      = (flush ⟨segs, sty, vp, ct, m'⟩).visiblePos := by
  by_cases h : ct ≠ [] ∧ segs.length < MAX_SEGMENTS
  · rw [flush, if_pos h, flush, if_pos h]
    exact ⟨rfl, rfl⟩
  · rw [flush, if_neg h, flush, if_neg h]
    exact ⟨rfl, rfl⟩

/-- C3 (amended): an escape introducer whose body runs to end-of-line
without an `'m'` terminator is consumed-but-inert provided the body fits
the 64-byte `codes` buffer (at most 63 bytes): from any state in ordinary
text mode, the trailing `ESC [ body` changes neither the emitted segments
nor the visible length of the parse — the scanned bytes are not re-emitted
as text and the partially parsed codes touch only the (now unobservable)
style state.  For longer bodies the scan stops at 63 bytes and the claim
fails (see the counterexample). -/
theorem c3_short_unterminated_escape_inert (st : ParseState) (body : List Char)
    (hm : st.mode = Mode.text) (hnm : 'm' ∉ body) (hlen : body.length ≤ 63) :
    (⟨(finishState ((escChar :: '[' :: body).foldl step st)).segments,
      (finishState ((escChar :: '[' :: body).foldl step st)).visiblePos⟩ : LineData)
    = ⟨(finishState st).segments, (finishState st).visiblePos⟩ := by
  rcases st with ⟨segs, sty, vp, ct, mode⟩
  rcases hm
  rw [List.foldl_cons, List.foldl_cons]
  have e1 : step ⟨segs, sty, vp, ct, Mode.text⟩ escChar
      = ⟨segs, sty, vp, ct, Mode.sawEsc⟩ := by
    show stepText _ escChar = _
    rw [stepText, if_pos rfl]
  have e2 : step ⟨segs, sty, vp, ct, Mode.sawEsc⟩ '['
      = { flush ⟨segs, sty, vp, ct, Mode.sawEsc⟩ with mode := Mode.inEsc [] } := by
    simp [step]
  rw [e1, e2, foldl_step_inEsc body _ [] rfl hnm (by simpa using hlen)]
  show (⟨(flush _).segments, (flush _).visiblePos⟩ : LineData) = _
  rw [flush_of_flush_restyled]
  show (⟨(flush ⟨segs, sty, vp, ct, Mode.sawEsc⟩).segments,
      (flush ⟨segs, sty, vp, ct, Mode.sawEsc⟩).visiblePos⟩ : LineData)
    = ⟨(flush ⟨segs, sty, vp, ct, Mode.text⟩).segments,
      (flush ⟨segs, sty, vp, ct, Mode.text⟩).visiblePos⟩
  obtain ⟨hseg, hvp⟩ := flush_mode_irrelevant segs sty vp ct Mode.sawEsc Mode.text
  rw [hseg, hvp]

theorem c3_short_unterminated_escape_inert_witness :
    (parseInit.mode = Mode.text ∧ 'm' ∉ ("31".toList) ∧ ("31".toList).length ≤ 63)
    ∧ (⟨(finishState ((escChar :: '[' :: "31".toList).foldl step parseInit)).segments,
        (finishState ((escChar :: '[' :: "31".toList).foldl step parseInit)).visiblePos⟩
          : LineData)
      = ⟨(finishState parseInit).segments, (finishState parseInit).visiblePos⟩ :=
  ⟨⟨rfl, by decide, by decide⟩,
    c3_short_unterminated_escape_inert parseInit ("31".toList) rfl (by decide) (by decide)⟩

/-- C3 (counterexample): when the unterminated escape body is longer than
the 63-byte `codes` buffer, the scan stops at capacity, the partially
scanned codes are applied to the style, and the remaining body bytes are
re-emitted as literal text — here the 63-byte prefix `31;31;...;` sets the
foreground to `#cd3131` and the leftover `xy` becomes a segment carrying
that non-default style, contradicting the claim that such codes have no
effect on subsequently emitted segments. -/
theorem c3_long_escape_body_reemitted :
    escBody63.length = 63
    ∧ 'm' ∉ (escBody63 ++ "xy".toList)
    ∧ (parse_ansi_line (escChar :: '[' :: (escBody63 ++ "xy".toList))).segments
      = [⟨"xy".toList, "#cd3131".toList, [], false, 0⟩]
    ∧ ("#cd3131".toList : List Char) ≠ TEXT_COLOR :=
  ⟨by decide, by decide, by decide, by decide⟩
